import Mathlib

/-!
# Verification of the Code::Blocks code-completion `Tokenizer`

A shallow embedding, in Lean 4, of the `Tokenizer` class of
`src/plugins/codecompletion/parser/tokenizer.h` together with the parts of its
behaviour that the repository's specification describes.  The header file is
the only tokenizer source present; the small member functions it defines
inline (`IsSkippingUnwantedTokens`, `SaveNestingLevel`, `RestoreNestingLevel`,
`GetNestingLevel`, `CurrentChar`, `PreviousChar`, `IsBackslashBeforeEOL`, ...)
are translated directly from their C++ bodies.  The out-of-line member
functions (`GetToken`, `PeekToken`, `UngetToken`, `SplitArguments`,
`KMP_Find`, the conditional-preprocessor handling, the macro-expansion
engine) have no implementation in the repository snapshot, so they are
modelled from the specification document; each such definition carries a
doc comment starting with `Modelled from the spec:`.
-/

namespace Tokenizer

/-! ## TokenizerState (tokenizer.h, enum `TokenizerState`) -/

def tsSkipEqual : Nat := 0x0001
def tsSkipQuestion : Nat := 0x0002
def tsSkipSubScrip : Nat := 0x0004
def tsSingleAngleBrace : Nat := 0x0008
def tsReadRawExpression : Nat := 0x0010
def tsSkipNone : Nat := 0x1000
def tsSkipUnWanted : Nat := tsSkipEqual ||| tsSkipQuestion ||| tsSkipSubScrip
def tsTemplateArgument : Nat := tsSkipUnWanted ||| tsSingleAngleBrace

/-! ## The data fields of class `Tokenizer` that the inline members touch.

`m_Buffer` is a `wxString`, modelled as a `List Char`; `m_BufferLen` is kept
as a separate field exactly as in the C++ class (the class maintains
`m_BufferLen = m_Buffer.Length()` but the inline members read the field, so
we embed the field).  `wxString::GetChar` on an in-range index is array
access; out of range it is undefined, the inline members always guard the
index first, and we use `getD` with the NUL character as the default. -/

structure TokenizerS where
  m_Buffer : List Char
  m_BufferLen : Nat
  m_TokenIndex : Nat
  m_LineNumber : Nat
  m_NestLevel : Nat
  m_SavedNestingLevel : Nat
  m_State : Nat
deriving Repr, DecidableEq

def NUL : Char := Char.ofNat 0

/-- `bool IsSkippingUnwantedTokens() const { return (m_State == tsSkipUnWanted); }` -/
def IsSkippingUnwantedTokens (t : TokenizerS) : Bool :=
  t.m_State == tsSkipUnWanted

/-- `unsigned int GetNestingLevel() const { return m_NestLevel; }` -/
def GetNestingLevel (t : TokenizerS) : Nat :=
  t.m_NestLevel

/-- `void SaveNestingLevel() { m_SavedNestingLevel = m_NestLevel; }` -/
def SaveNestingLevel (t : TokenizerS) : TokenizerS :=
  { t with m_SavedNestingLevel := t.m_NestLevel }

/-- `void RestoreNestingLevel() { m_NestLevel = m_SavedNestingLevel; }` -/
def RestoreNestingLevel (t : TokenizerS) : TokenizerS :=
  { t with m_NestLevel := t.m_SavedNestingLevel }

/-- An arbitrary later modification of the brace-nesting counter alone:
the scanning operations between a save and a restore mutate `m_NestLevel`
but never `m_SavedNestingLevel`. -/
def SetNestLevel (t : TokenizerS) (n : Nat) : TokenizerS :=
  { t with m_NestLevel := n }

/-- `wxChar CurrentChar() const`: the character at `m_TokenIndex`, or 0 past
the end. -/
def CurrentChar (t : TokenizerS) : Char :=
  if t.m_TokenIndex < t.m_BufferLen then t.m_Buffer.getD t.m_TokenIndex NUL
  else NUL

/-- `wxChar PreviousChar() const`: the character before `m_TokenIndex`, or 0. -/
def PreviousChar (t : TokenizerS) : Char :=
  if t.m_TokenIndex > 0 && t.m_BufferLen > 0 then
    t.m_Buffer.getD (t.m_TokenIndex - 1) NUL
  else NUL

/-- `inline bool IsBackslashBeforeEOL()` from tokenizer.h:
```
wxChar last = PreviousChar();
// if DOS line endings, we have hit \r and we skip to \n...
if (last == _T('\r') && m_TokenIndex >= 2)
    return m_Buffer.GetChar(m_TokenIndex - 2) == _T('\\');
return last == _T('\\');
```
-/
def IsBackslashBeforeEOL (t : TokenizerS) : Bool :=
  let last := PreviousChar t
  if last == '\r' && t.m_TokenIndex ≥ 2 then
    t.m_Buffer.getD (t.m_TokenIndex - 2) NUL == '\\'
  else last == '\\'

/-! ## Modelled character-level scanner and macro-expansion engine

The member functions `DoGetToken`, `Lex`, `CheckMacroUsageAndReplace`,
`SplitArguments`, `GetMacroExpandedText`, `ReplaceBufferText` and
`ReplaceMacroUsage` are declared in tokenizer.h but their bodies (in
tokenizer.cpp) are not part of the repository snapshot, so the engine below
is modelled from the specification document, sections 4.2-4.4. -/

/-- Modelled from the spec: identifier-shaped lexeme characters
("identifier-shaped lexeme", section 4.4). -/
def isIdentChar (c : Char) : Bool := c.isAlphanum || c == '_'

/-- Modelled from the spec: whitespace characters skipped before a lexeme
("leading whitespace/comments are always skipped first", section 4.3). -/
def isWS (c : Char) : Bool := c == ' ' || c == '\t' || c == '\n' || c == '\r'

/-- Modelled from the spec: `SkipWhiteSpace` of the character-level scanner,
on the unconsumed tail of the buffer. -/
def skipWhiteSpace : List Char → List Char
  | [] => []
  | c :: cs => if isWS c then skipWhiteSpace cs else c :: cs

/-- Modelled from the spec: gather the maximal run of identifier characters
(the rest of an identifier lexeme) and return it with the remaining buffer. -/
def takeIdent : List Char → List Char × List Char
  | [] => ([], [])
  | c :: cs =>
    if isIdentChar c then (c :: (takeIdent cs).1, (takeIdent cs).2)
    else ([], c :: cs)

theorem takeIdent_snd_length : ∀ cs : List Char, (takeIdent cs).2.length ≤ cs.length := by
  intro cs
  induction cs with
  | nil => simp [takeIdent]
  | cons c cs ih =>
    by_cases h : isIdentChar c
    · simpa [takeIdent, h] using Nat.le_succ_of_le ih
    · simp [takeIdent, h]

/-- Modelled from the spec: `Lex` — "composes scanner primitives into one
lexeme per call" (section 2): skip whitespace, then take either a maximal
identifier run or a single other character; `none` at end of buffer. -/
def lexOne (buf : List Char) : Option (String × List Char) :=
  match skipWhiteSpace buf with
  | [] => none
  | c :: cs =>
    if isIdentChar c then some (String.mk (c :: (takeIdent cs).1), (takeIdent cs).2)
    else some (String.mk [c], cs)

/-- Modelled from the spec: a macro definition as delivered by the external
token store: "a definition carries {is-function-like, formal parameter
names, replacement-body text}" (section 6). -/
structure MacroDef where
  name : String
  isFunctionLike : Bool
  params : List String
  body : String
deriving Repr, DecidableEq

/-- Modelled from the spec: `FindMacroDefinition(name) -> optional(definition)`
(section 6). -/
def findMacro (store : List MacroDef) (name : String) : Option MacroDef :=
  store.find? (fun m => m.name == name)

/-- Strip leading and trailing whitespace from an argument piece. -/
def trimWS (s : List Char) : List Char :=
  ((s.dropWhile isWS).reverse.dropWhile isWS).reverse

/-- Modelled from the spec: the scanning loop of `SplitArguments`, after the
opening parenthesis: the "balanced argument list is captured and split on
top-level commas (nested parens/brackets do not count as separators)"
(section 4.4); reaching the end of the buffer before the matching close
parenthesis means the list is unbalanced and yields `none`.
`depth` is the current parenthesis/bracket nesting (1 = top level inside the
outer parentheses), `cur` the current piece reversed, `acc` the finished
pieces. -/
def splitArgsAux : List Char → Nat → List Char → List String →
    Option (List String × List Char)
  | [], _, _, _ => none
  | c :: cs, depth, cur, acc =>
    if c == ')' then
      if depth == 1 then some (acc ++ [String.mk (trimWS cur.reverse)], cs)
      else splitArgsAux cs (depth - 1) (c :: cur) acc
    else if c == '(' || c == '[' then splitArgsAux cs (depth + 1) (c :: cur) acc
    else if c == ']' then splitArgsAux cs (depth - 1) (c :: cur) acc
    else if c == ',' && depth == 1 then
      splitArgsAux cs depth [] (acc ++ [String.mk (trimWS cur.reverse)])
    else splitArgsAux cs depth (c :: cur) acc

/-- Modelled from the spec: `SplitArguments` — "the text immediately
following the identifier (skipping whitespace/comments) must be an opening
parenthesis" (section 4.4); if the first non-whitespace character is not
`(`, or the list is unbalanced, the result is `none` ("return false if
arguments (the parenthesis) are not found", tokenizer.h line 427). On
success it returns the split argument strings and the buffer after the
closing parenthesis. -/
def SplitArguments (buf : List Char) : Option (List String × List Char) :=
  match skipWhiteSpace buf with
  | '(' :: cs => splitArgsAux cs 1 [] []
  | _ => none

/-- Modelled from the spec: `GetMacroExpandedText` instantiation step — "the
macro body is instantiated by substituting each formal parameter occurrence
with its corresponding actual argument text" (section 4.4): every
identifier lexeme of the body equal to a formal parameter is replaced by
the corresponding actual argument. -/
def substBody (params args : List String) : List Char → List Char
  | [] => []
  | c :: cs =>
    if isIdentChar c then
      (match (params.zip args).find? (fun pa => pa.1 == String.mk (c :: (takeIdent cs).1)) with
        | some pa => pa.2.data
        | none => c :: (takeIdent cs).1) ++ substBody params args (takeIdent cs).2
    else c :: substBody params args cs
termination_by l => l.length
decreasing_by
  · simpa using Nat.lt_succ_of_le (takeIdent_snd_length cs)
  · simp

/-- Modelled from the spec: the `DoGetToken`/`CheckMacroUsageAndReplace`
loop of the macro expansion engine (section 4.4): lex one lexeme; when it
is an identifier naming a stored macro that does not already appear in the
expansion stack, splice the instantiated body into the buffer at the cursor
and resume scanning there; when the macro already appears in the stack
(recursion guard, step 1), or when a function-like macro has no argument
list (step 2), return the identifier as a plain token.  `stack` is the
expansion stack (`m_ExpandedMacros`) reduced to the names of the macros
whose replacement text is currently live; `fuel` bounds the number of
splices and exists only to express the recursion (the termination theorem
shows `store.length + 1` fuel is never exhausted). -/
def expandLoop (store : List MacroDef) :
    Nat → List String → List Char → Option (String × List Char)
  | 0, _, _ => none
  | _ + 1, _, [] => some ("", [])
  | fuel + 1, stack, buf@(_ :: _) =>
    match lexOne buf with
    | none => some ("", [])
    | some (tok, rest) =>
      match findMacro store tok with
      | none => some (tok, rest)
      | some m =>
        if tok ∈ stack then some (tok, rest)
        else if m.isFunctionLike then
          match SplitArguments rest with
          | none => some (tok, rest)
          | some (args, rest2) =>
            expandLoop store fuel (tok :: stack)
              (substBody m.params args m.body.data ++ rest2)
        else expandLoop store fuel (tok :: stack) (m.body.data ++ rest)

/-- Modelled from the spec: `GetToken` with macro expansion — one consuming
call, starting from a retired (empty) expansion stack, with enough fuel for
every store macro to expand once. -/
def GetTokenExp (store : List MacroDef) (buf : List Char) :
    Option (String × List Char) :=
  expandLoop store (store.length + 1) [] buf

/-- Modelled from the spec: the token stream obtained by "calling GetToken()
repeatedly" — at most `n` tokens, stopping at end of buffer. -/
def tokenStream (store : List MacroDef) : Nat → List Char → List String
  | 0, _ => []
  | n + 1, buf =>
    match GetTokenExp store buf with
    | none => []
    | some (tok, rest) => if tok == "" then [] else tok :: tokenStream store n rest

/-- The mutually recursive pair of object-like macro definitions
`#define A B` / `#define B A` of the recursion-guard scenario, as store
entries. -/
def storeAB : List MacroDef :=
  [⟨"A", false, [], "B"⟩, ⟨"B", false, [], "A"⟩]

/-! ### Termination of the expansion loop via the recursion guard -/

theorem length_filter_stack_cons_lt (l : List String) (stack : List String) (tok : String)
    (htl : tok ∈ l) (hts : tok ∉ stack) :
    (l.filter (fun n => decide (¬ n ∈ tok :: stack))).length <
      (l.filter (fun n => decide (¬ n ∈ stack))).length := by
  have hsub : List.Sublist (l.filter (fun n => decide (¬ n ∈ tok :: stack)))
      (l.filter (fun n => decide (¬ n ∈ stack))) := by
    apply List.monotone_filter_right
    intro a ha
    simp only [decide_eq_true_eq, List.mem_cons, not_or] at *
    exact ha.2
  have hmemq : tok ∈ l.filter (fun n => decide (¬ n ∈ stack)) :=
    List.mem_filter.mpr ⟨htl, by simpa using hts⟩
  have hmemp : tok ∉ l.filter (fun n => decide (¬ n ∈ tok :: stack)) := by
    intro hmem
    have := (List.mem_filter.mp hmem).2
    simp at this
  by_contra hlt
  have hle := hsub.length_le
  have heq := hsub.eq_of_length (by omega)
  rw [heq] at hmemp
  exact hmemp hmemq

/-- With fuel exceeding the number of store macros not yet on the expansion
stack, `expandLoop` never exhausts its fuel: the recursion guard pushes a
fresh store-macro name on every splice, so the chain of splices within one
consuming call is bounded. -/
theorem expandLoop_isSome (store : List MacroDef) :
    ∀ (fuel : Nat) (stack : List String) (buf : List Char),
      ((store.map (fun m => m.name)).filter (fun n => decide (¬ n ∈ stack))).length < fuel →
      (expandLoop store fuel stack buf).isSome = true := by
  intro fuel
  induction fuel with
  | zero => intro stack buf h; omega
  | succ fuel ih =>
    intro stack buf h
    match buf with
    | [] => simp [expandLoop]
    | c :: cs =>
      simp only [expandLoop]
      cases hlex : lexOne (c :: cs) with
      | none => simp [hlex]
      | some p =>
        obtain ⟨tok, rest⟩ := p
        simp only [hlex]
        cases hfind : findMacro store tok with
        | none => simp [hfind]
        | some m =>
          simp only [hfind]
          by_cases hstk : tok ∈ stack
          · simp [hstk]
          · have hfind2 : store.find? (fun mm => mm.name == tok) = some m := hfind
            have htok : tok ∈ store.map (fun m => m.name) := by
              have hmem := List.mem_of_find?_eq_some hfind2
              have hname : (m.name == tok) = true :=
                List.find?_some (p := fun mm : MacroDef => mm.name == tok) hfind2
              exact List.mem_map.mpr ⟨m, hmem, by simpa using hname⟩
            have hlt := length_filter_stack_cons_lt _ stack tok htok hstk
            have hfuel :
                ((store.map (fun m => m.name)).filter
                  (fun n => decide (¬ n ∈ tok :: stack))).length < fuel := by omega
            by_cases hfn : m.isFunctionLike
            · cases hsplit : SplitArguments rest with
              | none => simp [hstk, hfn, hsplit]
              | some q =>
                obtain ⟨args, rest2⟩ := q
                simpa [hstk, hfn, hsplit] using ih (tok :: stack) _ hfuel
            · simpa [hstk, hfn] using ih (tok :: stack) _ hfuel

/-- C1: with `#define A B` and `#define B A` registered in the store,
expansion terminates — in general, any `expandLoop` call whose fuel exceeds
the number of store macros not already on the expansion stack returns a
result (the recursion guard never re-expands a macro already in
`m_ExpandedMacros`) — and on the buffer `"A;"` the consuming call returns
the literal identifier `"A"`, so the token stream contains one of the
literal identifiers `A` or `B`. -/
theorem macroRecursionGuard :
    (∀ (fuel : Nat) (stack : List String) (buf : List Char),
        ((storeAB.map (fun m => m.name)).filter (fun n => decide (¬ n ∈ stack))).length < fuel →
        (expandLoop storeAB fuel stack buf).isSome = true) ∧
    GetTokenExp storeAB "A;".data = some ("A", [';']) ∧
    ("A" ∈ tokenStream storeAB 2 "A;".data ∨ "B" ∈ tokenStream storeAB 2 "A;".data) := by
  refine ⟨fun fuel stack buf h => expandLoop_isSome storeAB fuel stack buf h, by decide, ?_⟩
  left; decide

/-- Witness for C1: the termination statement applied at concrete fuel,
stack and buffer. -/
theorem macroRecursionGuard_witness :
    (expandLoop storeAB 3 ["C"] "A;".data).isSome = true :=
  macroRecursionGuard.1 3 ["C"] "A;".data (by decide)

/-- C4: `SplitArguments` on the argument list of `F(1, (2,3), 4)` — with the
cursor at the opening parenthesis, or on whitespace before it — produces
exactly the three argument strings `"1"`, `"(2,3)"` and `"4"`: the commas
inside the nested parentheses are not treated as separators. -/
theorem splitArguments_nested :
    SplitArguments "(1, (2,3), 4) zzz".data =
      some (["1", "(2,3)", "4"], " zzz".data) ∧
    SplitArguments "  (1, (2,3), 4)".data = some (["1", "(2,3)", "4"], []) := by
  exact ⟨rfl, rfl⟩

/-- C5: when the lexed identifier names a stored function-like macro not
blocked by the recursion guard, but `SplitArguments` fails on the following
text (no opening parenthesis after whitespace, or an unbalanced argument
list), expansion is aborted: the identifier itself is returned as a plain
token and the buffer after it is left untouched, so tokenization simply
continues — the failure is silent and local. -/
theorem failedExpansion_plainToken (store : List MacroDef) (stack : List String)
    (fuel : Nat) (buf rest : List Char) (tok : String) (m : MacroDef)
    (hlex : lexOne buf = some (tok, rest))
    (hfind : findMacro store tok = some m)
    (hstk : ¬ tok ∈ stack)
    (hfn : m.isFunctionLike = true)
    (hsplit : SplitArguments rest = none) :
    expandLoop store (fuel + 1) stack buf = some (tok, rest) := by
  match buf with
  | [] => simp [lexOne, skipWhiteSpace] at hlex
  | c :: cs => simp [expandLoop, hlex, hfind, hstk, hfn, hsplit]

/-- Witness for C5: the function-like macro `F(x) => x+x`, used once without
a parenthesis (`F + 1`) and once with an unbalanced argument list
(`F(1, 2` at end of buffer); both return the plain identifier `"F"`, and in
the first case the token stream continues as `F`, `+`, `1`. -/
theorem failedExpansion_plainToken_witness :
    expandLoop [⟨"F", true, ["x"], "x+x"⟩] 2 [] "F + 1".data =
        some ("F", " + 1".data) ∧
    tokenStream [⟨"F", true, ["x"], "x+x"⟩] 3 "F + 1".data = ["F", "+", "1"] ∧
    expandLoop [⟨"F", true, ["x"], "x+x"⟩] 2 [] "F(1, 2".data =
        some ("F", "(1, 2".data) := by
  refine ⟨?_, by decide, ?_⟩
  · exact failedExpansion_plainToken _ [] 1 _ _ _ _ rfl rfl (by simp) rfl rfl
  · exact failedExpansion_plainToken _ [] 1 _ _ _ _ rfl rfl (by simp) rfl rfl

/-! ## Modelled GetToken/PeekToken/UngetToken protocol

The bodies of `GetToken`, `PeekToken` and `UngetToken` are in the missing
tokenizer.cpp; the protocol below is modelled from the specification
(sections 3 "Peek Cache" / "Undo Slot" and 4.3) over the backing fields the
header declares (`m_Token`, `m_TokenIndex`, `m_LineNumber`, `m_NestLevel`,
`m_UndoTokenIndex`, `m_UndoLineNumber`, `m_UndoNestLevel`,
`m_PeekAvailable`, `m_PeekToken`, `m_PeekTokenIndex`, `m_PeekLineNumber`,
`m_PeekNestLevel`).  The underlying lexing step `DoGetToken` (which just
"moves the m_TokenIndex one step forward, and returns a lexeme") is
abstracted as an arbitrary deterministic function of the buffer and the
cursor state, so the protocol theorems hold for every lexer. -/

/-- Modelled from the spec: the protocol-relevant state of a `Tokenizer`
(tokenizer.h lines 461-492). -/
structure PTokenizer where
  buffer : List Char
  tokenIndex : Nat
  lineNumber : Nat
  nestLevel : Nat
  token : String
  undoTokenIndex : Nat
  undoLineNumber : Nat
  undoNestLevel : Nat
  peekAvailable : Bool
  peekToken : String
  peekTokenIndex : Nat
  peekLineNumber : Nat
  peekNestLevel : Nat
deriving Repr, DecidableEq

/-- Modelled from the spec: the type of `DoGetToken` — a deterministic map
from the buffer and the cursor triple {offset, line, nesting} to the lexed
token string and the advanced cursor triple. -/
def DoGetTokenFun : Type := List Char → Nat → Nat → Nat → String × Nat × Nat × Nat

/-- Modelled from the spec: `GetToken()` — "Consume and return the current
token string": record the pre-consumption cursor in the single undo slot;
if the peek cache holds an entry, consume it (adopting its saved cursor),
otherwise run `DoGetToken` at the current cursor. -/
def PGetToken (lex : DoGetTokenFun) (t : PTokenizer) : String × PTokenizer :=
  if t.peekAvailable then
    (t.peekToken,
      { t with
          token := t.peekToken
          tokenIndex := t.peekTokenIndex
          lineNumber := t.peekLineNumber
          nestLevel := t.peekNestLevel
          peekAvailable := false
          undoTokenIndex := t.tokenIndex
          undoLineNumber := t.lineNumber
          undoNestLevel := t.nestLevel })
  else
    (((lex t.buffer t.tokenIndex t.lineNumber t.nestLevel)).1,
      { t with
          token := (lex t.buffer t.tokenIndex t.lineNumber t.nestLevel).1
          tokenIndex := (lex t.buffer t.tokenIndex t.lineNumber t.nestLevel).2.1
          lineNumber := (lex t.buffer t.tokenIndex t.lineNumber t.nestLevel).2.2.1
          nestLevel := (lex t.buffer t.tokenIndex t.lineNumber t.nestLevel).2.2.2
          undoTokenIndex := t.tokenIndex
          undoLineNumber := t.lineNumber
          undoNestLevel := t.nestLevel })

/-- Modelled from the spec: `PeekToken()` — "a look ahead on the buffer":
if the peek cache is filled, return it unchanged ("the peeked string will be
cached until the next GetToken() call"); otherwise run `DoGetToken` at the
current cursor, fill the cache with the token and the advanced cursor, and
leave the consuming cursor untouched. -/
def PPeekToken (lex : DoGetTokenFun) (t : PTokenizer) : String × PTokenizer :=
  if t.peekAvailable then (t.peekToken, t)
  else
    ((lex t.buffer t.tokenIndex t.lineNumber t.nestLevel).1,
      { t with
          peekAvailable := true
          peekToken := (lex t.buffer t.tokenIndex t.lineNumber t.nestLevel).1
          peekTokenIndex := (lex t.buffer t.tokenIndex t.lineNumber t.nestLevel).2.1
          peekLineNumber := (lex t.buffer t.tokenIndex t.lineNumber t.nestLevel).2.2.1
          peekNestLevel := (lex t.buffer t.tokenIndex t.lineNumber t.nestLevel).2.2.2 })

/-- Modelled from the spec: `UngetToken()` — "rewinds exactly one previously
consumed token, restoring cursor/line/nesting to their pre-consumption
values" by copying the undo slot back, and re-offers the undone token
through the peek cache. -/
def PUngetToken (t : PTokenizer) : PTokenizer :=
  { t with
      peekToken := t.token
      peekAvailable := true
      peekTokenIndex := t.tokenIndex
      peekLineNumber := t.lineNumber
      peekNestLevel := t.nestLevel
      tokenIndex := t.undoTokenIndex
      lineNumber := t.undoLineNumber
      nestLevel := t.undoNestLevel }

/-- The state after one `PeekToken()` call. -/
def peekState (lex : DoGetTokenFun) (t : PTokenizer) : PTokenizer :=
  (PPeekToken lex t).2

/-! ## C2: GetToken; UngetToken; GetToken round-trips -/

/-- C2: for every lexer and every starting state, `GetToken()` followed by
`UngetToken()` followed by `GetToken()` returns the same token string as
the first `GetToken()`, and after the second `GetToken()` the cursor offset,
line number and nesting level equal their values before the `UngetToken()`;
moreover only one level of undo history exists: a second consecutive
`UngetToken()` rewinds the cursor to the same place as the first. -/
theorem getUngetGet_roundTrip (lex : DoGetTokenFun) (s0 : PTokenizer) :
    (PGetToken lex (PUngetToken (PGetToken lex s0).2)).1 = (PGetToken lex s0).1 ∧
    (PGetToken lex (PUngetToken (PGetToken lex s0).2)).2.tokenIndex =
      (PGetToken lex s0).2.tokenIndex ∧
    (PGetToken lex (PUngetToken (PGetToken lex s0).2)).2.lineNumber =
      (PGetToken lex s0).2.lineNumber ∧
    (PGetToken lex (PUngetToken (PGetToken lex s0).2)).2.nestLevel =
      (PGetToken lex s0).2.nestLevel ∧
    (PUngetToken (PUngetToken (PGetToken lex s0).2)).tokenIndex =
      (PUngetToken (PGetToken lex s0).2).tokenIndex ∧
    (PUngetToken (PUngetToken (PGetToken lex s0).2)).lineNumber =
      (PUngetToken (PGetToken lex s0).2).lineNumber ∧
    (PUngetToken (PUngetToken (PGetToken lex s0).2)).nestLevel =
      (PUngetToken (PGetToken lex s0).2).nestLevel := by
  by_cases h : s0.peekAvailable <;>
    simp [PGetToken, PUngetToken, h]

/-! ## C3: repeated PeekToken is pure -/

theorem peekState_cursor (lex : DoGetTokenFun) (s : PTokenizer) :
    (peekState lex s).tokenIndex = s.tokenIndex ∧
    (peekState lex s).lineNumber = s.lineNumber ∧
    (peekState lex s).nestLevel = s.nestLevel := by
  by_cases h : s.peekAvailable <;> simp [peekState, PPeekToken, h]

theorem peekState_idem (lex : DoGetTokenFun) (s : PTokenizer) :
    peekState lex (peekState lex s) = peekState lex s := by
  by_cases h : s.peekAvailable <;> simp [peekState, PPeekToken, h]

theorem peekState_token (lex : DoGetTokenFun) (s : PTokenizer) :
    (PPeekToken lex (peekState lex s)).1 = (PPeekToken lex s).1 := by
  by_cases h : s.peekAvailable <;> simp [peekState, PPeekToken, h]

theorem peekState_iterate_stable (lex : DoGetTokenFun) (s : PTokenizer) (n : Nat) :
    (peekState lex)^[n] (peekState lex s) = peekState lex s := by
  induction n with
  | zero => simp
  | succ k ihk => rw [Function.iterate_succ_apply, peekState_idem, ihk]

/-- C3: for every lexer, every buffer state and every number `n` of
preceding `PeekToken()` calls, the next `PeekToken()` call returns the same
token string as the very first one, and the consuming cursor (offset, line,
nesting) after the `n` peeks is unchanged from before the first peek. -/
theorem peekToken_idempotent (lex : DoGetTokenFun) (s : PTokenizer) (n : Nat) :
    (PPeekToken lex ((peekState lex)^[n] s)).1 = (PPeekToken lex s).1 ∧
    ((peekState lex)^[n] s).tokenIndex = s.tokenIndex ∧
    ((peekState lex)^[n] s).lineNumber = s.lineNumber ∧
    ((peekState lex)^[n] s).nestLevel = s.nestLevel := by
  cases n with
  | zero => simp
  | succ n =>
    have hit : (peekState lex)^[n + 1] s = (peekState lex)^[n] (peekState lex s) := by
      rw [Function.iterate_succ_apply]
    rw [hit, peekState_iterate_stable]
    refine ⟨peekState_token lex s, ?_, ?_, ?_⟩
    · exact (peekState_cursor lex s).1
    · exact (peekState_cursor lex s).2.1
    · exact (peekState_cursor lex s).2.2

/-! ## Modelled conditional-preprocessor evaluator

`HandleConditionPreprocessor`, `SkipToNextConditionPreprocessor`,
`SkipToEndConditionPreprocessor`, `GetPreprocessorType` and
`CalcConditionExpression` are declared in tokenizer.h but implemented in
the missing tokenizer.cpp; the evaluator below is modelled from
specification section 4.5, which is explicitly line-by-line ("scanning
jumps forward line-by-line (not tokenizing skipped content) to the next
sibling directive at the same nesting depth"). -/

/-- Fuel-driven repetition of `lexOne`; each successful `lexOne` consumes
at least one character, so `buf.length + 1` fuel lexes the whole line. -/
def lexAllFuel : Nat → List Char → List String
  | 0, _ => []
  | fuel + 1, buf =>
    match lexOne buf with
    | none => []
    | some (tok, rest) => tok :: lexAllFuel fuel rest

/-- All lexemes of a line of content (repeated `DoGetToken` on the line). -/
def lexAll (buf : List Char) : List String :=
  lexAllFuel (buf.length + 1) buf

/-- Embedded from tokenizer.h, `enum PreprocessorType`: the categories of
C-preprocessor directives. -/
inductive PreprocessorType where
  | ptIf
  | ptIfdef
  | ptIfndef
  | ptElif
  | ptElifdef
  | ptElifndef
  | ptElse
  | ptEndif
  | ptOthers
deriving Repr, DecidableEq

open PreprocessorType

/-- Modelled from the spec: `GetPreprocessorType` applied to one line — on a
line whose first non-whitespace character is `#`, classify the directive
keyword and return it with the identifier that follows (for the
ifdef-family) and the remaining condition text; `none` for a line that is
not a directive. -/
def directiveOf (line : List Char) : Option (PreprocessorType × String × List Char) :=
  match skipWhiteSpace line with
  | '#' :: rest =>
    match lexOne rest with
    | none => some (ptOthers, "", [])
    | some (w, rest2) =>
      let kind :=
        if w == "if" then ptIf
        else if w == "ifdef" then ptIfdef
        else if w == "ifndef" then ptIfndef
        else if w == "elif" then ptElif
        else if w == "elifdef" then ptElifdef
        else if w == "elifndef" then ptElifndef
        else if w == "else" then ptElse
        else if w == "endif" then ptEndif
        else ptOthers
      let name := match lexOne rest2 with
        | some (n, _) => n
        | none => ""
      some (kind, name, rest2)
  | _ => none

/-- Modelled from the spec: `CalcConditionExpression` reduced to the parts
section 4.5 fixes — a `defined(NAME)` / `defined NAME` test against the
external token store, a literal `0` is false, and any other (unresolvable)
condition defaults to the conservative truth value `true` ("unresolvable
terms default to a conservative truth value to keep completion results as
inclusive as possible"). -/
def CalcConditionExpressionM (store : List String) (text : List Char) : Bool :=
  match lexOne text with
  | none => true
  | some (w, rest) =>
    if w == "defined" then
      match lexOne rest with
      | some ("(", rest2) =>
        match lexOne rest2 with
        | some (n, _) => store.contains n
        | none => true
      | some (n, _) => store.contains n
      | none => true
    else if w == "0" then false
    else true

/-- Modelled from the spec: the evaluator states of section 4.5:
`ReadingNormally`, `InsideFalseBranch-SeekingNextBranch` (with the count of
nested conditional groups opened inside the skipped region), and
`InsideTrueBranch`/`InsideFalseBranch-SeekingEnd` (skipping the remainder
of a resolved group to its `#endif`). -/
inductive PPMode where
  | normal
  | seekBranch (depth : Nat)
  | seekEnd (depth : Nat)
deriving Repr, DecidableEq

/-- Modelled from the spec: the tokenizer's main loop with
`wantPreprocessor` enabled, over a buffer already split into physical
lines.  Content lines are tokenized; `#if`-family directives are evaluated
against the store; a false branch jumps line-by-line to the next sibling
directive at the same depth; after a taken branch, the remainder of the
group is skipped to `#endif`.  Non-conditional directives are exposed as
opaque lines. -/
def runPP (store : List String) : PPMode → List (List Char) → List String
  | _, [] => []
  | PPMode.normal, line :: rest =>
    match directiveOf line with
    | none => lexAll line ++ runPP store PPMode.normal rest
    | some (k, name, cond) =>
      match k with
      | ptIfdef =>
        if name ∈ store then runPP store PPMode.normal rest
        else runPP store (PPMode.seekBranch 0) rest
      | ptIfndef =>
        if name ∈ store then runPP store (PPMode.seekBranch 0) rest
        else runPP store PPMode.normal rest
      | ptIf =>
        if CalcConditionExpressionM store cond then runPP store PPMode.normal rest
        else runPP store (PPMode.seekBranch 0) rest
      | ptElif => runPP store (PPMode.seekEnd 0) rest
      | ptElifdef => runPP store (PPMode.seekEnd 0) rest
      | ptElifndef => runPP store (PPMode.seekEnd 0) rest
      | ptElse => runPP store (PPMode.seekEnd 0) rest
      | ptEndif => runPP store PPMode.normal rest
      | ptOthers => lexAll line ++ runPP store PPMode.normal rest
  | PPMode.seekBranch d, line :: rest =>
    match directiveOf line with
    | none => runPP store (PPMode.seekBranch d) rest
    | some (k, name, cond) =>
      match k with
      | ptIf => runPP store (PPMode.seekBranch (d + 1)) rest
      | ptIfdef => runPP store (PPMode.seekBranch (d + 1)) rest
      | ptIfndef => runPP store (PPMode.seekBranch (d + 1)) rest
      | ptEndif =>
        if d == 0 then runPP store PPMode.normal rest
        else runPP store (PPMode.seekBranch (d - 1)) rest
      | ptElse =>
        if d == 0 then runPP store PPMode.normal rest
        else runPP store (PPMode.seekBranch d) rest
      | ptElifdef =>
        if d == 0 then
          if name ∈ store then runPP store PPMode.normal rest
          else runPP store (PPMode.seekBranch 0) rest
        else runPP store (PPMode.seekBranch d) rest
      | ptElifndef =>
        if d == 0 then
          if name ∈ store then runPP store (PPMode.seekBranch 0) rest
          else runPP store PPMode.normal rest
        else runPP store (PPMode.seekBranch d) rest
      | ptElif =>
        if d == 0 then
          if CalcConditionExpressionM store cond then runPP store PPMode.normal rest
          else runPP store (PPMode.seekBranch 0) rest
        else runPP store (PPMode.seekBranch d) rest
      | ptOthers => runPP store (PPMode.seekBranch d) rest
  | PPMode.seekEnd d, line :: rest =>
    match directiveOf line with
    | none => runPP store (PPMode.seekEnd d) rest
    | some (k, _, _) =>
      match k with
      | ptIf => runPP store (PPMode.seekEnd (d + 1)) rest
      | ptIfdef => runPP store (PPMode.seekEnd (d + 1)) rest
      | ptIfndef => runPP store (PPMode.seekEnd (d + 1)) rest
      | ptEndif =>
        if d == 0 then runPP store PPMode.normal rest
        else runPP store (PPMode.seekEnd (d - 1)) rest
      | _ => runPP store (PPMode.seekEnd d) rest

theorem runPP_seekBranch_skip (store : List String) (ls : List (List Char))
    (rest : List (List Char)) (hls : ∀ l ∈ ls, directiveOf l = none) :
    runPP store (PPMode.seekBranch 0) (ls ++ rest) =
      runPP store (PPMode.seekBranch 0) rest := by
  induction ls with
  | nil => simp
  | cons l ls ih =>
    have hl : directiveOf l = none := hls l (by simp)
    have hrest : ∀ x ∈ ls, directiveOf x = none := fun x hx => hls x (by simp [hx])
    rw [List.cons_append]
    simp only [runPP, hl]
    exact ih hrest

theorem runPP_normal_content (store : List String) (ls : List (List Char))
    (rest : List (List Char)) (hls : ∀ l ∈ ls, directiveOf l = none) :
    runPP store PPMode.normal (ls ++ rest) =
      (ls.map lexAll).flatten ++ runPP store PPMode.normal rest := by
  induction ls with
  | nil => simp
  | cons l ls ih =>
    have hl : directiveOf l = none := hls l (by simp)
    have hrest : ∀ x ∈ ls, directiveOf x = none := fun x hx => hls x (by simp [hx])
    rw [List.cons_append]
    simp only [runPP, hl, List.map_cons, List.flatten_cons, List.append_assoc]
    rw [ih hrest]

/-- C6: with the preprocessor evaluator active and `FOO` absent from the
store, a buffer of the form `#ifdef FOO` / then-lines / `#else` /
else-lines / `#endif` — with arbitrary non-directive content lines in both
branches — produces exactly the tokens of the `#else` branch's content; no
token of the `#ifdef` branch's content is ever returned. -/
theorem ifdefElse_onlyElseBranch (store : List String)
    (thenLines elseLines : List (List Char))
    (hfoo : ¬ "FOO" ∈ store)
    (hthen : ∀ l ∈ thenLines, directiveOf l = none)
    (helse : ∀ l ∈ elseLines, directiveOf l = none) :
    runPP store PPMode.normal
        ("#ifdef FOO".data ::
          (thenLines ++ "#else".data :: (elseLines ++ ["#endif".data]))) =
      (elseLines.map lexAll).flatten := by
  have h1 : directiveOf "#ifdef FOO".data = some (ptIfdef, "FOO", " FOO".data) := rfl
  have h2 : directiveOf "#else".data = some (ptElse, "", []) := rfl
  have h3 : directiveOf "#endif".data = some (ptEndif, "", []) := rfl
  simp only [runPP, h1]
  rw [if_neg hfoo]
  rw [runPP_seekBranch_skip store thenLines _ hthen]
  simp only [runPP, h2]
  rw [if_pos (by rfl)]
  rw [runPP_normal_content store elseLines _ helse]
  simp [runPP, h3]

/-- Witness for C6: the concrete buffer
`#ifdef FOO / int a; / #else / long b; / #endif` with an empty store yields
exactly the tokens of the else branch: `long`, `b`, `;`. -/
theorem ifdefElse_onlyElseBranch_witness :
    runPP [] PPMode.normal
        ("#ifdef FOO".data ::
          (["int a;".data] ++ "#else".data :: (["long b;".data] ++ ["#endif".data]))) =
      ["long", "b", ";"] := by
  rw [ifdefElse_onlyElseBranch [] ["int a;".data] ["long b;".data] (by simp)
    (by intro l hl; simp at hl; rw [hl]; rfl)
    (by intro l hl; simp at hl; rw [hl]; rfl)]
  rfl

/-! ## Modelled KMP substring search

`KMP_Find` and `KMP_GetNextVal` are declared in tokenizer.h (lines 259-260,
437-438) but implemented in the missing tokenizer.cpp, so they are modelled
from specification section 4.6: "Standard Knuth-Morris-Pratt exact
substring search: given a text and pattern, returns the first matching
offset or a not-found sentinel, in linear time via a precomputed failure
function over the pattern".  The failure function (`KMP_GetNextVal`)
carries, for each pattern position, the length of the longest proper
border of the prefix ending there; the scanning loop falls back along it
on a mismatch.  The comparison point demanded by the claim is the naive
left-to-right substring scan. -/

/-- The largest `k ≤ n` with `P k = true`, defaulting to 0. -/
def largestLe (P : Nat → Bool) : Nat → Nat
  | 0 => 0
  | k + 1 => if P (k + 1) then k + 1 else largestLe P k

theorem largestLe_le (P : Nat → Bool) : ∀ n, largestLe P n ≤ n := by
  intro n
  induction n with
  | zero => simp [largestLe]
  | succ k ih =>
    by_cases h : P (k + 1)
    · simp [largestLe, h]
    · simp only [largestLe, if_neg h]
      omega

theorem largestLe_prop (P : Nat → Bool) (h0 : P 0 = true) :
    ∀ n, P (largestLe P n) = true := by
  intro n
  induction n with
  | zero => simpa [largestLe] using h0
  | succ k ih =>
    by_cases h : P (k + 1)
    · simp [largestLe, h]
    · simpa only [largestLe, if_neg h] using ih

theorem le_largestLe (P : Nat → Bool) : ∀ n k, k ≤ n → P k = true → k ≤ largestLe P n := by
  intro n
  induction n with
  | zero =>
    intro k hk _
    simpa [largestLe] using hk
  | succ m ih =>
    intro k hk hP
    by_cases h : P (m + 1)
    · simp only [largestLe, if_pos h]
      exact hk
    · simp only [largestLe, if_neg h]
      have hkm : k ≤ m := by
        rcases Nat.lt_or_ge k (m + 1) with h1 | h1
        · omega
        · exfalso
          have hke : k = m + 1 := by omega
          rw [hke] at hP
          exact h hP
      exact ih k hkm hP

/-- Modelled from the spec: `KMP_GetNextVal`, the precomputed failure
function — `fail p j` is the length of the longest proper border of
`p.take j` (the longest `k < j` with `p.take k` a suffix of `p.take j`). -/
def fail (p : List Char) (j : Nat) : Nat :=
  largestLe (fun k => (p.take k).isSuffixOf (p.take j)) (j - 1)

/-- The length of the longest prefix of `p` that is a suffix of `s`
(capped at `p.length`): the invariant value the KMP scanning state `j`
tracks. -/
def maxMatch (p s : List Char) : Nat :=
  largestLe (fun k => (p.take k).isSuffixOf s) p.length

/-- Modelled from the spec: one character step of the KMP scanning loop —
on a match extend the matched prefix, on a mismatch fall back along the
failure function until a match or the empty prefix. -/
def kmpStep (p : List Char) (c : Char) (j : Nat) : Nat :=
  if j < p.length ∧ p.getD j NUL = c then j + 1
  else if j = 0 then 0
  else kmpStep p c (fail p j)
termination_by j
decreasing_by
  have hle := largestLe_le (fun k => (p.take k).isSuffixOf (p.take j)) (j - 1)
  simp only [fail]
  omega

/-- Modelled from the spec: the KMP scanning loop — `i` is the number of
text characters consumed so far, `j` the length of the matched pattern
prefix; reports the first offset at which the whole pattern matches. -/
def kmpLoop (p : List Char) : List Char → Nat → Nat → Option Nat
  | [], _, _ => none
  | c :: t, i, j =>
    if kmpStep p c j = p.length then some (i + 1 - p.length)
    else kmpLoop p t (i + 1) (kmpStep p c j)

/-- Modelled from the spec: `KMP_Find` — "KMP find, get the first position,
if find nothing, return -1" (tokenizer.h line 259). -/
def KMP_Find (text pattern : List Char) : Int :=
  if pattern.length = 0 then 0
  else
    match kmpLoop pattern text 0 0 with
    | some r => (r : Int)
    | none => -1

/-- The naive left-to-right substring scan the claim compares against:
try every offset in order, returning the first where the pattern is a
prefix of the remaining text. -/
def naiveFindAux (p : List Char) : List Char → Nat → Option Nat
  | [], i => if p.isPrefixOf [] then some i else none
  | c :: s, i => if p.isPrefixOf (c :: s) then some i else naiveFindAux p s (i + 1)

/-- The naive substring scan with the same interface as `KMP_Find`:
first matching offset, or the sentinel -1. -/
def naiveFind (text pattern : List Char) : Int :=
  match naiveFindAux pattern text 0 with
  | some r => (r : Int)
  | none => -1

/-! ### Properties of `maxMatch` and `fail` -/

theorem maxMatch_le (p s : List Char) : maxMatch p s ≤ p.length :=
  largestLe_le _ _

theorem maxMatch_suffix (p s : List Char) : p.take (maxMatch p s) <:+ s := by
  have h := largestLe_prop (fun k => (p.take k).isSuffixOf s) (by simp) p.length
  simpa [maxMatch] using h

theorem le_maxMatch (p s : List Char) (k : Nat) (hk : k ≤ p.length)
    (h : p.take k <:+ s) : k ≤ maxMatch p s :=
  le_largestLe _ _ k hk (by simpa using h)

theorem maxMatch_length_le (p s : List Char) : maxMatch p s ≤ s.length := by
  have h1 := (maxMatch_suffix p s).length_le
  rw [List.length_take] at h1
  have h2 := maxMatch_le p s
  omega

theorem maxMatch_take (p : List Char) (j : Nat) (hj : j ≤ p.length) :
    maxMatch p (p.take j) = j := by
  apply le_antisymm
  · have h := maxMatch_length_le p (p.take j)
    rw [List.length_take] at h
    omega
  · exact le_maxMatch p _ j hj List.suffix_rfl

theorem fail_le (p : List Char) (j : Nat) : fail p j ≤ j - 1 :=
  largestLe_le _ _

theorem fail_lt (p : List Char) (j : Nat) (hj : j ≠ 0) : fail p j < j := by
  have h := fail_le p j
  omega

theorem fail_suffix (p : List Char) (j : Nat) : p.take (fail p j) <:+ p.take j := by
  have h := largestLe_prop (fun k => (p.take k).isSuffixOf (p.take j)) (by simp) (j - 1)
  simpa [fail] using h

theorem le_fail (p : List Char) (j k : Nat) (hk : k ≤ j - 1)
    (h : p.take k <:+ p.take j) : k ≤ fail p j :=
  le_largestLe _ _ k hk (by simpa using h)

/-! ### Suffix bookkeeping lemmas -/

theorem take_succ_getD (p : List Char) (k : Nat) (hk : k < p.length) :
    p.take (k + 1) = p.take k ++ [p.getD k NUL] := by
  rw [List.take_succ]
  congr 1
  simp [List.getElem?_eq_getElem hk]

theorem suffix_append_singleton {a b : List Char} (c : Char) (h : a <:+ b) :
    a ++ [c] <:+ b ++ [c] := by
  obtain ⟨u, rfl⟩ := h
  exact ⟨u, by simp⟩

theorem suffix_singleton_split (p s : List Char) (c : Char) (k : Nat)
    (hk1 : 1 ≤ k) (hkM : k ≤ p.length) (h : p.take k <:+ s ++ [c]) :
    p.take (k - 1) <:+ s ∧ p.getD (k - 1) NUL = c := by
  obtain ⟨u, hu⟩ := h
  have hk2 : k - 1 < p.length := by omega
  have htk : p.take k = p.take (k - 1) ++ [p.getD (k - 1) NUL] := by
    have h := take_succ_getD p (k - 1) hk2
    rw [← h]
    congr 1
    omega
  rw [htk, ← List.append_assoc] at hu
  obtain ⟨h1, h2⟩ := List.append_inj' hu (by simp)
  exact ⟨⟨u, h1⟩, by simpa using h2⟩

theorem prefix_drop_iff (p t : List Char) (i : Nat) (hp : p ≠ []) :
    p <+: t.drop i ↔ (i + p.length ≤ t.length ∧ p <:+ t.take (i + p.length)) := by
  constructor
  · intro h
    obtain ⟨u, hu⟩ := h
    have hlen : i + p.length ≤ t.length := by
      by_cases hi : i ≤ t.length
      · have hl := congrArg List.length hu
        rw [List.length_drop, List.length_append] at hl
        omega
      · exfalso
        have hnil : t.drop i = [] := List.drop_eq_nil_of_le (by omega)
        rw [hnil] at hu
        exact hp (List.append_eq_nil.mp hu).1
    refine ⟨hlen, ?_⟩
    have htake : t.take (i + p.length) = t.take i ++ p := by
      rw [List.take_add, ← hu]
      congr 1
      exact List.take_left' rfl
    rw [htake]
    exact ⟨t.take i, rfl⟩
  · rintro ⟨hlen, hsuf⟩
    obtain ⟨u, hu⟩ := hsuf
    have hulen : u.length = i := by
      have hl := congrArg List.length hu
      rw [List.length_take, List.length_append] at hl
      omega
    rw [List.take_add] at hu
    obtain ⟨-, h2⟩ := List.append_inj hu (by rw [List.length_take]; omega)
    rw [h2]
    exact List.take_prefix _ _

/-! ### The KMP step computes the automaton transition -/

/-- One `kmpStep` preserves the scanning invariant: if `j` is the length of
the longest pattern prefix that is a suffix of the consumed text `s`, then
after reading `c` the new state is the same quantity for `s ++ [c]`. -/
theorem kmpStep_maxMatch (p : List Char) (c : Char) :
    ∀ j s, j = maxMatch p s → j < p.length →
      kmpStep p c j = maxMatch p (s ++ [c]) := by
  intro j
  induction j using Nat.strong_induction_on with
  | _ j ih =>
    intro s hj hjM
    by_cases hc : j < p.length ∧ p.getD j NUL = c
    · unfold kmpStep
      rw [if_pos hc]
      apply le_antisymm
      · apply le_maxMatch p _ (j + 1) (by omega)
        rw [take_succ_getD p j hjM, hc.2]
        exact suffix_append_singleton c (hj ▸ maxMatch_suffix p s)
      · have hkM : maxMatch p (s ++ [c]) ≤ p.length := maxMatch_le p (s ++ [c])
        rcases Nat.eq_zero_or_pos (maxMatch p (s ++ [c])) with h0 | h1
        · omega
        · have hsuf := maxMatch_suffix p (s ++ [c])
          obtain ⟨hs1, -⟩ :=
            suffix_singleton_split p s c (maxMatch p (s ++ [c])) h1 hkM hsuf
          have hle : maxMatch p (s ++ [c]) - 1 ≤ maxMatch p s :=
            le_maxMatch p s _ (by omega) hs1
          omega
    · have hne : p.getD j NUL ≠ c := fun h => hc ⟨hjM, h⟩
      by_cases hj0 : j = 0
      · unfold kmpStep
        rw [if_neg hc, if_pos hj0]
        symm
        by_contra hne0
        have h1 : 1 ≤ maxMatch p (s ++ [c]) := by omega
        have hkM : maxMatch p (s ++ [c]) ≤ p.length := maxMatch_le p (s ++ [c])
        have hsuf := maxMatch_suffix p (s ++ [c])
        obtain ⟨hs1, h2⟩ :=
          suffix_singleton_split p s c (maxMatch p (s ++ [c])) h1 hkM hsuf
        have hle : maxMatch p (s ++ [c]) - 1 ≤ maxMatch p s :=
          le_maxMatch p s _ (by omega) hs1
        have hz : maxMatch p (s ++ [c]) - 1 = 0 := by omega
        rw [hz] at h2
        rw [hj0] at hne
        exact hne h2
      · unfold kmpStep
        rw [if_neg hc, if_neg hj0]
        have hfl : fail p j < j := fail_lt p j hj0
        have hfM : fail p j < p.length := by omega
        have hid : fail p j = maxMatch p (p.take (fail p j)) :=
          (maxMatch_take p _ (by omega)).symm
        rw [ih (fail p j) hfl (p.take (fail p j)) hid hfM]
        have hMpos : 1 ≤ p.length := by omega
        apply le_antisymm
        · -- every prefix matching after `p.take (fail p j)` also matches after `s`
          have hkM := maxMatch_le p (p.take (fail p j) ++ [c])
          have hsuf := maxMatch_suffix p (p.take (fail p j) ++ [c])
          apply le_maxMatch p _ _ hkM
          rcases Nat.eq_zero_or_pos (maxMatch p (p.take (fail p j) ++ [c])) with h0 | h1
          · rw [h0]
            simp
          · obtain ⟨ha, hb⟩ :=
              suffix_singleton_split p (p.take (fail p j)) c _ h1 hkM hsuf
            have hch1 : p.take (fail p j) <:+ p.take j := fail_suffix p j
            have hch2 : p.take j <:+ s := hj ▸ maxMatch_suffix p s
            have hchain : p.take (maxMatch p (p.take (fail p j) ++ [c]) - 1) <:+ s :=
              ha.trans (hch1.trans hch2)
            have htk : p.take (maxMatch p (p.take (fail p j) ++ [c])) =
                p.take (maxMatch p (p.take (fail p j) ++ [c]) - 1) ++ [c] := by
              rw [show maxMatch p (p.take (fail p j) ++ [c]) =
                  (maxMatch p (p.take (fail p j) ++ [c]) - 1) + 1 by omega,
                take_succ_getD p _ (by omega), hb]
              simp
            rw [htk]
            exact suffix_append_singleton c hchain
        · -- every prefix matching after `s` also matches after `p.take (fail p j)`
          have hkM := maxMatch_le p (s ++ [c])
          have hsuf := maxMatch_suffix p (s ++ [c])
          rcases Nat.eq_zero_or_pos (maxMatch p (s ++ [c])) with h0 | h1
          · omega
          · obtain ⟨ha, hb⟩ := suffix_singleton_split p s c _ h1 hkM hsuf
            have hle_j : maxMatch p (s ++ [c]) - 1 ≤ j :=
              hj ▸ le_maxMatch p s _ (by omega) ha
            have hlt_j : maxMatch p (s ++ [c]) - 1 < j := by
              rcases Nat.lt_or_ge (maxMatch p (s ++ [c]) - 1) j with h | h
              · exact h
              · exfalso
                have he : maxMatch p (s ++ [c]) - 1 = j := by omega
                rw [he] at hb
                exact hne hb
            have hsj : p.take j <:+ s := hj ▸ maxMatch_suffix p s
            have h1j : p.take (maxMatch p (s ++ [c]) - 1) <:+ p.take j :=
              List.suffix_of_suffix_length_le ha hsj
                (by rw [List.length_take, List.length_take]; omega)
            have hlef : maxMatch p (s ++ [c]) - 1 ≤ fail p j :=
              le_fail p j _ (by omega) h1j
            have h2j : p.take (maxMatch p (s ++ [c]) - 1) <:+ p.take (fail p j) :=
              List.suffix_of_suffix_length_le h1j (fail_suffix p j)
                (by rw [List.length_take, List.length_take]; omega)
            have htk : p.take (maxMatch p (s ++ [c])) =
                p.take (maxMatch p (s ++ [c]) - 1) ++ [c] := by
              rw [show maxMatch p (s ++ [c]) = (maxMatch p (s ++ [c]) - 1) + 1 by omega,
                take_succ_getD p _ (by omega), hb]
              simp
            apply le_maxMatch p _ _ hkM
            rw [htk]
            exact suffix_append_singleton c h2j

/-! ### The scanning loop finds exactly the first occurrence -/

/-- Invariant-carrying correctness of `kmpLoop`: starting with `s` consumed,
state `j = maxMatch p s < p.length`, and no occurrence of `p` inside `s`,
the loop on the remaining text `t` returns the least offset of an
occurrence of `p` in `s ++ t`, or `none` when there is none. -/
theorem kmpLoop_spec (p : List Char) (hp : p ≠ []) :
    ∀ (t s : List Char) (j : Nat), j = maxMatch p s → j < p.length →
      (∀ q, ¬ p <+: s.drop q) →
      ((∃ r, kmpLoop p t s.length j = some r ∧ p <+: (s ++ t).drop r ∧
          ∀ q < r, ¬ p <+: (s ++ t).drop q) ∨
        (kmpLoop p t s.length j = none ∧ ∀ q, ¬ p <+: (s ++ t).drop q)) := by
  intro t
  induction t with
  | nil =>
    intro s j hj hjM hno
    right
    refine ⟨rfl, ?_⟩
    simpa using hno
  | cons c t2 ih =>
    intro s j hj hjM hno
    have hstep : kmpStep p c j = maxMatch p (s ++ [c]) := kmpStep_maxMatch p c j s hj hjM
    by_cases hfull : kmpStep p c j = p.length
    · left
      have hmm : maxMatch p (s ++ [c]) = p.length := by rw [← hstep, hfull]
      have hsuf : p <:+ s ++ [c] := by
        have h := maxMatch_suffix p (s ++ [c])
        rwa [hmm, List.take_length] at h
      have hMle : p.length ≤ s.length + 1 := by
        have h := hsuf.length_le
        simpa using h
      refine ⟨s.length + 1 - p.length, ?_, ?_, ?_⟩
      · simp only [kmpLoop]
        rw [if_pos hfull]
      · obtain ⟨u, hu⟩ := hsuf
        have hulen : u.length = s.length + 1 - p.length := by
          have h := congrArg List.length hu
          simp at h
          omega
        have hT : s ++ c :: t2 = u ++ (p ++ t2) := by
          rw [← List.append_assoc, hu]
          simp
        rw [hT, show s.length + 1 - p.length = u.length from hulen.symm, List.drop_left]
        exact ⟨t2, rfl⟩
      · intro q hq hocc
        rw [prefix_drop_iff p _ q hp] at hocc
        obtain ⟨-, hsuf2⟩ := hocc
        have hqM : q + p.length ≤ s.length := by omega
        rw [List.take_append_of_le_length hqM] at hsuf2
        exact hno q ((prefix_drop_iff p s q hp).mpr ⟨hqM, hsuf2⟩)
    · have hstep_lt : kmpStep p c j < p.length := by
        have h := maxMatch_le p (s ++ [c])
        rw [← hstep] at h
        omega
      have hno2 : ∀ q, ¬ p <+: (s ++ [c]).drop q := by
        intro q hocc
        rw [prefix_drop_iff p _ q hp] at hocc
        obtain ⟨hlen2, hsuf2⟩ := hocc
        simp only [List.length_append, List.length_cons, List.length_nil] at hlen2
        rcases Nat.lt_or_ge (q + p.length) (s.length + 1) with hcase | hcase
        · have hqs : q + p.length ≤ s.length := by omega
          rw [List.take_append_of_le_length hqs] at hsuf2
          exact hno q ((prefix_drop_iff p s q hp).mpr ⟨hqs, hsuf2⟩)
        · have heq : q + p.length = s.length + 1 := by omega
          rw [heq] at hsuf2
          have htt : (s ++ [c]).take (s.length + 1) = s ++ [c] :=
            List.take_of_length_le (by simp)
          rw [htt] at hsuf2
          have hMle2 : p.length ≤ maxMatch p (s ++ [c]) := by
            apply le_maxMatch p _ _ (le_refl _)
            rw [List.take_length]
            exact hsuf2
          have hkM := maxMatch_le p (s ++ [c])
          have heq2 : maxMatch p (s ++ [c]) = p.length := by omega
          rw [← hstep] at heq2
          exact hfull heq2
      have hrec := ih (s ++ [c]) (kmpStep p c j) hstep hstep_lt hno2
      have hlen3 : (s ++ [c]).length = s.length + 1 := by simp
      have hT : (s ++ [c]) ++ t2 = s ++ c :: t2 := by simp
      rw [hlen3, hT] at hrec
      simp only [kmpLoop]
      rw [if_neg hfull]
      exact hrec

/-- Correctness of the naive scan: `naiveFindAux` returns its start offset
plus the least occurrence offset, or `none` when the pattern never occurs. -/
theorem naiveFindAux_spec (p : List Char) :
    ∀ (s : List Char) (i0 : Nat),
      ((∃ r, naiveFindAux p s i0 = some (i0 + r) ∧ p <+: s.drop r ∧
          ∀ q < r, ¬ p <+: s.drop q) ∨
        (naiveFindAux p s i0 = none ∧ ∀ q, ¬ p <+: s.drop q)) := by
  intro s
  induction s with
  | nil =>
    intro i0
    by_cases h : p.isPrefixOf []
    · left
      exact ⟨0, by simp [naiveFindAux, h], by simpa using h, by omega⟩
    · right
      refine ⟨by simp [naiveFindAux, h], ?_⟩
      intro q hq
      rw [List.drop_nil] at hq
      exact h (by simpa using hq)
  | cons c s2 ih =>
    intro i0
    by_cases h : p.isPrefixOf (c :: s2)
    · left
      exact ⟨0, by simp [naiveFindAux, h], by simpa using h, by omega⟩
    · rcases ih (i0 + 1) with ⟨r, hr, hocc, hmin⟩ | ⟨hr, hno⟩
      · left
        refine ⟨r + 1, ?_, ?_, ?_⟩
        · simp only [naiveFindAux, if_neg h, hr]
          congr 1
          omega
        · simpa using hocc
        · intro q hq
          cases q with
          | zero =>
            intro hocc0
            exact h (by simpa using hocc0)
          | succ q2 =>
            intro hocc2
            exact hmin q2 (by omega) (by simpa using hocc2)
      · right
        refine ⟨by simp only [naiveFindAux, if_neg h, hr], ?_⟩
        intro q
        cases q with
        | zero =>
          intro h0
          exact h (by simpa using h0)
        | succ q2 =>
          intro h2
          exact hno q2 (by simpa using h2)

theorem kmp_eq_naive_aux (text pattern : List Char) :
    KMP_Find text pattern = naiveFind text pattern := by
  by_cases hp : pattern = []
  · subst hp
    cases text with
    | nil => rfl
    | cons c t => rfl
  · have hM : 0 < pattern.length := List.length_pos.mpr hp
    have hnil : (0 : Nat) = maxMatch pattern [] := by
      have h := maxMatch_length_le pattern []
      simp only [List.length_nil] at h
      omega
    have hno : ∀ q, ¬ pattern <+: (([] : List Char).drop q) := by
      intro q h
      rw [List.drop_nil] at h
      exact hp (List.prefix_nil.mp h)
    have hkmp := kmpLoop_spec pattern hp text [] 0 hnil hM hno
    have hnaive := naiveFindAux_spec pattern text 0
    simp only [List.length_nil, List.nil_append] at hkmp
    unfold KMP_Find naiveFind
    rw [if_neg (by omega)]
    rcases hkmp with ⟨r, hr, hocc, hmin⟩ | ⟨hr, hnone⟩
    · rcases hnaive with ⟨r2, hr2, hocc2, hmin2⟩ | ⟨hr2, hno2⟩
      · have hrr : r = r2 := by
          rcases Nat.lt_trichotomy r r2 with h | h | h
          · exact absurd hocc (hmin2 r h)
          · exact h
          · exact absurd hocc2 (hmin r2 h)
        rw [hr, hr2, hrr]
        simp
      · exact absurd hocc (hno2 r)
    · rcases hnaive with ⟨r2, hr2, hocc2, hmin2⟩ | ⟨hr2, hno2⟩
      · exact absurd hocc2 (hnone r2)
      · rw [hr, hr2]

theorem naive_neg_one_iff (text pattern : List Char) :
    naiveFind text pattern = -1 ↔ ∀ i, ¬ pattern <+: text.drop i := by
  rcases naiveFindAux_spec pattern text 0 with ⟨r, hr, hocc, -⟩ | ⟨hr, hno⟩
  · unfold naiveFind
    rw [hr]
    constructor
    · intro h
      exfalso
      simp only [Int.natCast_eq_zero] at h
      omega
    · intro h
      exact absurd hocc (h r)
  · unfold naiveFind
    rw [hr]
    exact iff_of_true rfl hno

/-- C7: for every text and pattern, the modelled `KMP_Find` returns exactly
the result of the naive left-to-right substring scan — the offset of the
first occurrence of the pattern in the text — and returns the sentinel -1
exactly when the pattern does not occur anywhere in the text. -/
theorem kmpFind_matches_naive (text pattern : List Char) :
    KMP_Find text pattern = naiveFind text pattern ∧
    (KMP_Find text pattern = -1 ↔ ∀ i, ¬ pattern <+: text.drop i) := by
  refine ⟨kmp_eq_naive_aux text pattern, ?_⟩
  rw [kmp_eq_naive_aux text pattern]
  exact naive_neg_one_iff text pattern

end Tokenizer

namespace Tokenizer

/-! ## C10: `IsSkippingUnwantedTokens` is an equality test, not a mask test -/

/-- C10: `IsSkippingUnwantedTokens()` returns true iff `m_State` equals
exactly `tsSkipUnWanted` (= `tsSkipEqual ||| tsSkipQuestion ||| tsSkipSubScrip`,
i.e. 7); in particular on every state that strictly contains those bits plus
others — such as `tsTemplateArgument` = `tsSkipUnWanted ||| tsSingleAngleBrace`
— it returns false, because the check is `==`, not a bitmask intersection. -/
theorem isSkippingUnwantedTokens_eq_iff :
    (∀ t : TokenizerS,
      IsSkippingUnwantedTokens t = true ↔ t.m_State = tsSkipUnWanted) ∧
    tsSkipUnWanted = tsSkipEqual ||| tsSkipQuestion ||| tsSkipSubScrip ∧
    tsTemplateArgument = tsSkipUnWanted ||| tsSingleAngleBrace ∧
    (∀ t : TokenizerS, t.m_State = tsTemplateArgument →
      IsSkippingUnwantedTokens t = false) := by
  refine ⟨fun t => ?_, rfl, rfl, fun t h => ?_⟩
  · simp [IsSkippingUnwantedTokens]
  · simp [IsSkippingUnwantedTokens, h, tsTemplateArgument, tsSkipUnWanted,
      tsSkipEqual, tsSkipQuestion, tsSkipSubScrip, tsSingleAngleBrace]

/-- Witness for C10: evaluated on a concrete tokenizer state whose
`m_State` is `tsTemplateArgument`. -/
theorem isSkippingUnwantedTokens_eq_iff_witness :
    IsSkippingUnwantedTokens
      ⟨[], 0, 0, 1, 0, 0, tsTemplateArgument⟩ = false :=
  isSkippingUnwantedTokens_eq_iff.2.2.2 ⟨[], 0, 0, 1, 0, 0, tsTemplateArgument⟩ rfl

/-! ## C9: Save/RestoreNestingLevel round-trips exactly -/

/-- C9: after `SaveNestingLevel()`, any subsequent modification of
`m_NestLevel` (to an arbitrary value `n`), followed by
`RestoreNestingLevel()`, leaves `GetNestingLevel()` equal to its value at
the moment of the save. -/
theorem restoreNestingLevel_roundTrip (t : TokenizerS) (n : Nat) :
    GetNestingLevel (RestoreNestingLevel (SetNestLevel (SaveNestingLevel t) n)) =
      GetNestingLevel t := rfl

/-! ## C8: `IsBackslashBeforeEOL` recognises both LF and CRLF escapes -/

/-- C8: when the current character is a line feed, `IsBackslashBeforeEOL`
returns true exactly when the preceding character is a backslash (LF style
`\` + `\n`), or the preceding character is a carriage return at index ≥ 1
whose own predecessor is a backslash (CRLF style `\` + `\r\n`). -/
theorem isBackslashBeforeEOL_spec (t : TokenizerS) (_hc : CurrentChar t = '\n') :
    IsBackslashBeforeEOL t = true ↔
      (PreviousChar t = '\\' ∨
        (PreviousChar t = '\r' ∧ 2 ≤ t.m_TokenIndex ∧
          t.m_Buffer.getD (t.m_TokenIndex - 2) NUL = '\\')) := by
  unfold IsBackslashBeforeEOL
  by_cases hr : PreviousChar t = '\r'
  · by_cases hi : 2 ≤ t.m_TokenIndex
    · simp [hr, hi]
    · have : ¬ PreviousChar t = '\\' := by simp [hr]
      simp [hr, hi, this]
  · simp [hr]

/-- Witness for C8: the concrete buffer `"a\\\r\n"` with the cursor on the
`'\n'` (index 3): a CRLF line ending preceded by a backslash is reported as
an escaped line break. -/
theorem isBackslashBeforeEOL_spec_witness :
    CurrentChar ⟨['a', '\\', '\r', '\n'], 4, 3, 1, 0, 0, tsSkipNone⟩ = '\n' ∧
    IsBackslashBeforeEOL ⟨['a', '\\', '\r', '\n'], 4, 3, 1, 0, 0, tsSkipNone⟩ = true := by
  refine ⟨by decide, ?_⟩
  exact (isBackslashBeforeEOL_spec ⟨['a', '\\', '\r', '\n'], 4, 3, 1, 0, 0, tsSkipNone⟩
    (by decide)).mpr (Or.inr ⟨by decide, by decide, by decide⟩)

end Tokenizer
